import Mathlib

/-!
Shallow embedding of the `lyza::json` recursive-descent JSON parser
(`src/parser.hpp`) together with a model of the character `producer` and the
tagged `value` tree it builds.  `producer.hpp` and `value.hpp` are not part of
the sources, so those two components are modelled from the specification
(§3, §4.1, §4.2 of `spec.md`); every function of `parser.hpp` is translated
directly from the C++ source.

Conventions of the embedding:
* the character stream is a `List Char` carried inside the `producer`
  structure, together with the 1-based line/column counters and the
  whitespace-insignificance flag toggled by `skip_ws`;
* C++ exceptions become the `Except jerr` monad; `jerr.parseError` is the
  `parser::parse_error` class (carrying the line/column captured by its
  constructor plus the message), `jerr.stdInvalidArgument` models the
  `std::invalid_argument` that `std::stod` raises on a string with no leading
  digits, and `jerr.diverge` marks a run of a source-level `while` loop that
  never terminates (the embedding gives every loop a fuel counter);
* `double` values are modelled as `ℚ`.  Every concrete number checked below
  (`0`, `1`, `2`, `-150`) is exactly representable as a double and
  `std::stod`/`std::pow`/`*` are exact on the traced inputs, so the rational
  model agrees with the IEEE semantics on everything we evaluate.
-/

namespace LyzaJson

/-- The four insignificant-whitespace characters of the spec (§4.1):
space, tab, carriage return, newline. -/
def isWsChar (c : Char) : Bool :=
  c = ' ' || c = '\t' || c = '\r' || c = '\n'

/-- `lyza::json::isdigit` — classic-locale `std::isdigit`, i.e. the ASCII
digit range. -/
def isdigit (c : Char) : Bool :=
  '0' ≤ c && c ≤ '9'

/-- Modelled from the spec: the `producer` of `producer.hpp` (not under
`src/`).  It holds the remaining character stream, the 1-based line and
column (§3, §4.1), and the whitespace-insignificance flag set by
`skip_ws` (§4.1, §4.3): while the flag is on, `peekc` first advances past any
run of insignificant whitespace, so that "productions never need to re-check
for leading whitespace themselves"; while it is off (inside a string literal)
whitespace is ordinary content. -/
structure producer where
  stream : List Char
  line : Nat
  col : Nat
  skip : Bool

/-- A fresh producer over a string: position 1:1, whitespace-skipping off
until the first `skip_ws(true)`. -/
def mkProducer (s : String) : producer :=
  ⟨s.data, 1, 1, false⟩

/-- Consume one character: column advances by one, a newline resets the
column to 1 and increments the line (spec §4.1 `next`). -/
def consume1 (p : producer) (c : Char) (rest : List Char) : producer :=
  if c = '\n' then { p with stream := rest, line := p.line + 1, col := 1 }
  else { p with stream := rest, col := p.col + 1 }

/-- Drop a leading run of insignificant whitespace from a stream, advancing
the line/column counters exactly as `next` would. -/
def skipRunAux : List Char → Nat → Nat → (List Char × Nat × Nat)
  | [], l, c => ([], l, c)
  | ch :: cs, l, c =>
    if isWsChar ch then
      if ch = '\n' then skipRunAux cs (l + 1) 1 else skipRunAux cs l (c + 1)
    else (ch :: cs, l, c)

/-- Modelled from the spec: advance the producer past a run of insignificant
whitespace (§4.1 `skip_whitespace`). -/
def skipRun (p : producer) : producer :=
  let r := skipRunAux p.stream p.line p.col
  { p with stream := r.1, line := r.2.1, col := r.2.2 }

/-- Modelled from the spec: `producer::skip_ws(b)`.  The boolean both
requests an immediate skip (`true`) and records whether whitespace is
currently insignificant; `skip_ws(false)` defers (§4.1) and turns the
insignificance flag off so that string content is preserved. -/
def skip_ws (p : producer) (b : Bool) : producer :=
  let p' := { p with skip := b }
  if b then skipRun p' else p'

/-- Modelled from the spec: the sentinel "no character" value a read at
end-of-stream produces (§7). -/
def noChar : Char := Char.ofNat 0

/-- Modelled from the spec: `producer::peekc` — return the next character
without consuming it (`none` at end-of-stream); while whitespace is
insignificant the producer first advances past any pending whitespace run. -/
def peekc (p : producer) : Option Char × producer :=
  let q := if p.skip then skipRun p else p
  (q.stream.head?, q)

/-- Modelled from the spec: `producer::nextc` — consume and return the
current character; at end-of-stream it yields the sentinel `noChar` without
advancing (§4.1, §7). -/
def nextc (p : producer) : Char × producer :=
  match p.stream with
  | [] => (noChar, p)
  | c :: cs => (c, consume1 p c cs)

/-- Modelled from the spec: `producer::eof` (§4.1). -/
def eof (p : producer) : Bool :=
  p.stream.isEmpty

/-- Modelled from the spec: the `value` variant of `value.hpp` (§3) — a
tagged union over null, boolean, number (double, modelled as `ℚ`), string,
array and object; an object is a key→value mapping. -/
inductive value where
  | null : value
  | boolean : Bool → value
  | number : ℚ → value
  | string : String → value
  | array : List value → value
  | object : List (String × value) → value

/-- Modelled from the spec: `o[key] = v` on an object (§3, §4.2) — when the
key already exists the new value overwrites the old one in place, otherwise
the pair is inserted. -/
def setKey : List (String × value) → String → value → List (String × value)
  | [], k, v => [(k, v)]
  | (k', v') :: rest, k, v =>
    if k' = k then (k', v) :: rest else (k', v') :: setKey rest k v

/-- The failure outcomes of the embedded parser. -/
inductive jerr where
  | parseError (line col : Nat) (msg : String)
  | stdInvalidArgument
  | diverge
deriving DecidableEq

/-- `parser::parse_error::what()` — the message rendered by the constructor:
`"<line>:<column>: <message>\n"` (note the trailing newline appended at
`parser.hpp` line 39). -/
def parse_error_what (l c : Nat) (m : String) : String :=
  toString l ++ ":" ++ toString c ++ ": " ++ m ++ "\n"

/-- The rendered `what()` text of an error, when it is a `parse_error`. -/
def renderedWhat : jerr → Option String
  | .parseError l c m => some (parse_error_what l c m)
  | _ => none

/-- Drain a stream to end-of-stream via repeated `nextc`, returning the
drained characters and the final line/column. -/
def drainAux : List Char → Nat → Nat → (List Char × Nat × Nat)
  | [], l, c => ([], l, c)
  | ch :: cs, l, c =>
    let r := if ch = '\n' then drainAux cs (l + 1) 1 else drainAux cs l (c + 1)
    (ch :: r.1, r.2)

/-- `parser::error` — drains the producer into `until_eof`, then constructs
the `parse_error` from the (post-drain) producer position and the message
`msg + "until_eof=\"" + until_eof + "\""`. -/
def error (p : producer) (msg : String) : jerr :=
  let r := drainAux p.stream p.line p.col
  .parseError r.2.1 r.2.2 (msg ++ "until_eof=\"" ++ String.mk r.1 ++ "\"")

/-- `parser::has` — peek and compare, leaving the (possibly
whitespace-normalised) producer behind. -/
def has (p : producer) (c : Char) : Bool × producer :=
  let r := peekc p
  (r.1 = some c, r.2)

/-- `parser::may_have` — peek and, on a match, also consume. -/
def may_have (p : producer) (c : Char) : Bool × producer :=
  let r := peekc p
  if r.1 = some c then
    let n := nextc r.2
    (true, n.2)
  else (false, r.2)

/-- `parser::char_to_code` — the character's numeric code, printed. -/
def char_to_code (c : Char) : String :=
  toString c.toNat

/-- The C++ subexpression `std::string(c, 1)` of `parser::expects`: overload
resolution picks `std::string(size_type, char)`, so it builds `c`'s code
many copies of the character `'\x01'` — reproduced faithfully. -/
def strOfCharOne (c : Char) : String :=
  String.mk (List.replicate c.toNat (Char.ofNat 1))

/-- `parser::expects` — consume one character and fail with a `parse_error`
(constructed at the post-consumption position) unless it is `c`. -/
def expects (p : producer) (c : Char) : Except jerr producer :=
  let r := nextc p
  if r.1 = c then .ok r.2
  else
    .error (.parseError r.2.line r.2.col
      ("parse error: '" ++ strOfCharOne c ++ "'(code=" ++ char_to_code c
        ++ ")\texpected, got: '" ++ strOfCharOne r.1 ++ "'' (code="
        ++ char_to_code r.1 ++ ")"))

/-- The loop of `parser::match_string`: `expects` each character in turn. -/
def matchChars : producer → List Char → Except jerr producer
  | p, [] => .ok p
  | p, c :: cs => do
    let p ← expects p c
    matchChars p cs

/-- `parser::match_string`. -/
def match_string (p : producer) (s : String) : Except jerr producer :=
  matchChars p s.data

/-- The `while (!has(p, '"'))` loop of `parser::parse_string`; both the
escaped and the unescaped branch append the next character verbatim.  The
fuel models the source loop's (possible) divergence: on an unterminated
string the C++ loop never ends, which the embedding reports as
`jerr.diverge`. -/
def stringLoop : Nat → List Char → producer → Except jerr (List Char × producer)
  | 0, _, _ => .error .diverge
  | fuel + 1, acc, p =>
    let h := has p '"'
    if h.1 then .ok (acc, h.2)
    else
      let m := may_have h.2 '\\'
      let n := nextc m.2
      stringLoop fuel (acc ++ [n.1]) n.2

/-- `parser::parse_string` — opening quote, whitespace-insignificance off for
the literal's content, the copy loop, closing quote, whitespace skipped
after the closing boundary. -/
def parse_string (fuel : Nat) (p : producer) : Except jerr (String × producer) := do
  let p ← expects p '"'
  let p := skip_ws p false
  let (acc, p) ← stringLoop fuel [] p
  let p ← expects p '"'
  let p := skip_ws p true
  .ok (String.mk acc, p)

/-- `parser::parse_bool`. -/
def parse_bool (p : producer) : Except jerr (Bool × producer) :=
  let h := has p 't'
  if h.1 then do
    let p ← match_string h.2 "true"
    .ok (true, p)
  else
    let h' := has h.2 'f'
    if h'.1 then do
      let p ← match_string h'.2 "false"
      .ok (false, p)
    else .error (error h'.2 "expected boolean")

/-- `parser::parse_null`. -/
def parse_null (p : producer) : Except jerr (producer) :=
  let h := has p 'n'
  if h.1 then match_string h.2 "null"
  else .error (error h.2 "expected null")

/-- A digit-collecting `while (isdigit(p.peekc()))` loop of
`parser::parse_number`; always finite in the source (the stream is finite
and a sentinel peek is not a digit), fuelled here only for structural
recursion. -/
def digitLoop : Nat → List Char → producer → Except jerr (List Char × producer)
  | 0, _, _ => .error .diverge
  | fuel + 1, acc, p =>
    let r := peekc p
    match r.1 with
    | some c =>
      if isdigit c then
        let n := nextc r.2
        digitLoop fuel (acc ++ [n.1]) n.2
      else .ok (acc, r.2)
    | none => .ok (acc, r.2)

/-- The value of a (non-empty) digit string. -/
def digitsToNat (l : List Char) : Nat :=
  l.foldl (fun a c => a * 10 + (c.toNat - '0'.toNat)) 0

/-- Model of `std::stod` on the strings this parser constructs
(`digit+` optionally followed by `'.' digit+`, or a bare `digit*` exponent
text): the exact rational value of the decimal literal, or `none` — the
`std::invalid_argument` case — when there is no leading digit (in
particular on the empty string). -/
def mystod (s : String) : Option ℚ :=
  let ds := s.data.takeWhile isdigit
  let rest := s.data.dropWhile isdigit
  if ds.isEmpty then none
  else
    match rest with
    | '.' :: fs0 =>
      let fs := fs0.takeWhile isdigit
      some ((digitsToNat ds : ℚ) + (digitsToNat fs : ℚ) / (10 : ℚ) ^ fs.length)
    | _ => some ((digitsToNat ds : ℚ))

/-- `std::pow(10, s * e)` as used at `parser.hpp` line 273: 10 raised to the
signed exponent (the sign factor `s` is `-1.` when the exponent sign
character was `'-'`). -/
def pow10 (negExp : Bool) (e : Nat) : ℚ :=
  if negExp then ((10 : ℚ) ^ e)⁻¹ else (10 : ℚ) ^ e

/-- The integer-part block of `parser::parse_number` (lines 229–241): a
lone `'0'`, or a first digit satisfying the strict `'0' < c && c <= '9'`
comparison followed by a digit run; otherwise "expected number". -/
def numberIntPart (fuel : Nat) (p : producer) : Except jerr (List Char × producer) :=
  let h0 := has p '0'
  if h0.1 then
    let n := nextc h0.2
    .ok ([n.1], n.2)
  else
    let r := peekc h0.2
    match r.1 with
    | some c =>
      if '0' < c && c ≤ '9' then
        let n := nextc r.2
        digitLoop fuel [n.1] n.2
      else .error (error r.2 "expected number")
    | none => .error (error r.2 "expected number")

/-- The fraction block of `parser::parse_number` (lines 243–251): an
optional `'.'` that must be followed by at least one digit. -/
def numberFracPart (p : producer) (num : List Char) : Except jerr (List Char × producer) :=
  let hd := has p '.'
  if hd.1 then
    let n := nextc hd.2
    let num := num ++ [n.1]
    let r := peekc n.2
    match r.1 with
    | some c =>
      if isdigit c then
        let n2 := nextc r.2
        .ok (num ++ [n2.1], n2.2)
      else .error (error r.2 "expected number")
    | none => .error (error r.2 "expected number")
  else .ok (num, hd.2)

/-- The digit run of the exponent block of `parser::parse_number`
(lines 268–275): the run is handed to `std::stod` — which raises
`std::invalid_argument` when it is empty — and the base value is multiplied
by `10^±exp`.  (`std::stod` on a digit string is exactly the natural number
it denotes, extracted here as `dexpArg.num.toNat`; `op` is the sign
character read by the lines above.) -/
def numberExpDigits (fuel : Nat) (dnum : ℚ) (op : Char) (p : producer) :
    Except jerr (ℚ × producer) := do
  let (exp, p) ← digitLoop fuel [] p
  match mystod (String.mk exp) with
  | none => .error .stdInvalidArgument
  | some dexpArg =>
    let dexp := pow10 (op = '-') dexpArg.num.toNat
    .ok (dnum * dexp, p)

/-- The sign handling of the exponent block (lines 263–266). -/
def numberExpTail (fuel : Nat) (dnum : ℚ) (p : producer) : Except jerr (ℚ × producer) :=
  let hs := has p '-'
  let (hasSign, p) := if hs.1 then (true, hs.2) else has hs.2 '+'
  let (op, p) := if hasSign then nextc p else ('+', p)
  numberExpDigits fuel dnum op p

/-- The exponent block of `parser::parse_number` (lines 260–276): when the
lookahead is `e` or `E`, consume it and run the tail above; otherwise the
base value passes through unchanged. -/
def numberExpPart (fuel : Nat) (dnum : ℚ) (p : producer) : Except jerr (ℚ × producer) :=
  let he := has p 'e'
  let (isExp, p) := if he.1 then (true, he.2) else has he.2 'E'
  if isExp then numberExpTail fuel dnum ((nextc p).2)
  else .ok (dnum, p)

/-- `parser::parse_number`, assembled from its blocks: optional minus;
integer part; optional fraction; a further digit run (the loop at line 254,
which runs in every branch); `std::stod` of the collected text; the
exponent block; final negation. -/
def parse_number (fuel : Nat) (p : producer) : Except jerr (ℚ × producer) := do
  let hm := has p '-'
  let (neg, p) := if hm.1 then (true, (nextc hm.2).2) else (false, hm.2)
  let (num, p) ← numberIntPart fuel p
  let (num, p) ← numberFracPart p num
  let (num, p) ← digitLoop fuel num p
  match mystod (String.mk num) with
  | none => Except.error .stdInvalidArgument
  | some dnum => do
    let (q, p) ← numberExpPart fuel dnum p
    .ok (if neg then -q else q, p)

mutual

/-- `parser::parse_value` — single-character lookahead dispatch; any other
lookahead drains the stream and fails with "expected value". -/
def parse_value : Nat → producer → Except jerr (value × producer)
  | 0, _ => .error .diverge
  | fuel + 1, p =>
    let h1 := has p '"'
    if h1.1 then do
      let (s, p) ← parse_string fuel h1.2
      Except.ok (value.string s, p)
    else
      let h2 := has h1.2 '['
      if h2.1 then do
        let (a, p) ← parse_array fuel h2.2
        Except.ok (value.array a, p)
      else
        let h3 := has h2.2 '{'
        if h3.1 then do
          let (o, p) ← parse_object fuel h3.2
          Except.ok (value.object o, p)
        else
          let h4 := has h3.2 't'
          let (isB, pb) := if h4.1 then (true, h4.2) else has h4.2 'f'
          if isB then do
            let (b, p) ← parse_bool pb
            Except.ok (value.boolean b, p)
          else
            let h5 := has pb 'n'
            if h5.1 then do
              let p ← parse_null h5.2
              Except.ok (value.null, p)
            else
              let h6 := has h5.2 '-'
              let (isN, pn) :=
                if h6.1 then (true, h6.2)
                else
                  let r := peekc h6.2
                  (match r.1 with
                   | some c => isdigit c
                   | none => false, r.2)
              if isN then do
                let (q, p) ← parse_number fuel pn
                Except.ok (value.number q, p)
              else Except.error (error pn "expected value")

/-- The `while (more)` loop of `parser::parse_array`: parse a value, append
it, continue after a comma. -/
def arrayLoop : Nat → List value → producer → Except jerr (List value × producer)
  | 0, _, _ => .error .diverge
  | fuel + 1, a, p => do
    let (v, p) ← parse_value fuel p
    let a := a ++ [v]
    let hc := has p ','
    if hc.1 then arrayLoop fuel a (nextc hc.2).2
    else .ok (a, hc.2)

/-- `parser::parse_array`. -/
def parse_array : Nat → producer → Except jerr (List value × producer)
  | 0, _ => .error .diverge
  | fuel + 1, p => do
    let p ← expects p '['
    let he := has p ']'
    if he.1 then .ok ([], (nextc he.2).2)
    else do
      let (a, p) ← arrayLoop fuel [] he.2
      let p ← expects p ']'
      .ok (a, p)

/-- The `while (more)` loop of `parser::parse_object`: a quoted key (else
"expected key"), a colon, a value stored with `o[key] = ...`, continue after
a comma. -/
def objectLoop : Nat → List (String × value) → producer →
    Except jerr (List (String × value) × producer)
  | 0, _, _ => .error .diverge
  | fuel + 1, o, p =>
    let hk := has p '"'
    if hk.1 then do
      let (key, p) ← parse_string fuel hk.2
      let p ← expects p ':'
      let (v, p) ← parse_value fuel p
      let o := setKey o key v
      let hc := has p ','
      if hc.1 then objectLoop fuel o (nextc hc.2).2
      else .ok (o, hc.2)
    else .error (error hk.2 "expected key")

/-- `parser::parse_object`. -/
def parse_object : Nat → producer → Except jerr (List (String × value) × producer)
  | 0, _ => .error .diverge
  | fuel + 1, p => do
    let p ← expects p '{'
    let he := has p '}'
    if he.1 then .ok ([], (nextc he.2).2)
    else do
      let (o, p) ← objectLoop fuel [] he.2
      let p ← expects p '}'
      .ok (o, p)

end

/-- `parser::parse` — the document entry point (both overloads are the same
code): skip leading insignificant whitespace, then parse exactly one object
as the document root. -/
def parse (fuel : Nat) (p : producer) : Except jerr (List (String × value) × producer) :=
  let p := skip_ws p true
  parse_object fuel p

/-- Run the document entry point on a string. -/
def runParse (fuel : Nat) (s : String) : Except jerr (List (String × value) × producer) :=
  parse fuel (mkProducer s)

/-- A producer whose remaining stream has been extended by trailing
characters (used to state that `parse` ignores input after the root
object). -/
def extendP (p : producer) (t : List Char) : producer :=
  { p with stream := p.stream ++ t }

/-- The first character of a string that is not insignificant whitespace. -/
def firstNonWs (s : String) : Option Char :=
  (s.data.dropWhile isWsChar).head?

/-- `nextc` iterated `n` times (used to describe the state the `error`
helper's drain loop leaves the producer in). -/
def nextcIter : Nat → producer → producer
  | 0, p => p
  | n + 1, p => nextcIter n (nextc p).2

/-- The producer after its whole remaining stream has been consumed through
`nextc` — the state in which `error`'s `while (!p.eof())` drain loop leaves
the producer before the `parse_error` constructor reads its position. -/
def drainedP (p : producer) : producer :=
  nextcIter p.stream.length p

/-- Whether `pat` occurs as a contiguous substring of `s` (used to state
which rendered error messages carry an `until_eof` segment). -/
def strContains (s pat : String) : Bool :=
  (List.range (s.length + 1)).any fun i => (s.data.drop i).take pat.length = pat.data

/-! ## Theorems -/

set_option maxRecDepth 8000

theorem drainAux_fst (l : List Char) : ∀ a b : Nat, (drainAux l a b).1 = l := by
  induction l with
  | nil => intro a b; rfl
  | cons ch cs ih =>
    intro a b
    by_cases h : ch = '\n' <;> simp [drainAux, h, ih]

theorem nextcIter_drain (l : List Char) : ∀ (a b : Nat) (sk : Bool),
    nextcIter l.length ⟨l, a, b, sk⟩
      = ⟨[], (drainAux l a b).2.1, (drainAux l a b).2.2, sk⟩ := by
  induction l with
  | nil => intro a b sk; rfl
  | cons ch cs ih =>
    intro a b sk
    by_cases hn : ch = '\n'
    · subst hn
      simp [nextcIter, nextc, consume1, drainAux, ih]
    · simp [nextcIter, nextc, consume1, drainAux, hn, ih]

theorem skipRunAux_fst (l : List Char) : ∀ a b : Nat, (skipRunAux l a b).1 = l.dropWhile isWsChar := by
  induction l with
  | nil => intro a b; rfl
  | cons ch cs ih =>
    intro a b
    by_cases hw : isWsChar ch
    · by_cases hn : ch = '\n'
      · subst hn; simp [skipRunAux, List.dropWhile_cons, isWsChar, ih]
      · simp [skipRunAux, hw, hn, ih, List.dropWhile_cons]
    · simp [skipRunAux, hw, List.dropWhile_cons]

theorem dropWhile_head_false {q : Char → Bool} :
    ∀ (l : List Char) {c : Char} {rest : List Char},
      l.dropWhile q = c :: rest → q c = false := by
  intro l
  induction l with
  | nil => intro c rest h; simp at h
  | cons x xs ih =>
    intro c rest h
    by_cases hx : q x
    · rw [List.dropWhile_cons_of_pos hx] at h; exact ih h
    · rw [List.dropWhile_cons_of_neg hx] at h
      cases h
      simpa using hx

/-- C2.  Insignificant whitespace between structural tokens does not change
the parse result: `parse("{ \"a\" : 1 }")` and `parse("{\"a\":1}")` both
succeed and produce the identical value tree `{"a" ↦ 1}`. -/
theorem whitespace_insignificant_between_tokens :
    (runParse 100 "\x7b \"a\" : 1 \x7d").map Prod.fst = .ok [("a", value.number 1)]
    ∧ (runParse 100 "\x7b\"a\":1\x7d").map Prod.fst = .ok [("a", value.number 1)] :=
  ⟨rfl, rfl⟩

/-- C6.  Duplicate object keys: the later value overwrites the earlier one
in place, so `parse("{\"a\":1,\"a\":2}")` yields an object with exactly one
key `"a"`, mapped to `2`. -/
theorem duplicate_key_last_write_wins :
    (runParse 100 "\x7b\"a\":1,\"a\":2\x7d").map Prod.fst = .ok [("a", value.number 2)]
    ∧ List.length [("a", value.number 2)] = 1 :=
  ⟨rfl, rfl⟩

/-- C1 counterexample.  `parse_number` does *not* reject a leading zero
followed by further digits: on the input `"01"` it consumes both digits and
returns `1.0` (no `ParseError` is raised). -/
theorem parse_number_01_succeeds :
    parse_number 100 (mkProducer "01") = .ok (1, ⟨[], 1, 3, false⟩) :=
  rfl

theorem isdigit_ne_dot {c : Char} (h : isdigit c = true) : c ≠ '.' := by
  intro hc; subst hc; simp [isdigit] at h

theorem isdigit_ne_nl {c : Char} (h : isdigit c = true) : c ≠ '\n' := by
  intro hc; subst hc; simp [isdigit] at h

theorem digitLoop_all (ds : List Char) :
    ∀ (fuel : Nat) (acc : List Char) (l c : Nat),
      (∀ x ∈ ds, isdigit x = true) → ds.length < fuel →
      digitLoop fuel acc ⟨ds, l, c, false⟩ = .ok (acc ++ ds, ⟨[], l, c + ds.length, false⟩) := by
  induction ds with
  | nil =>
    intro fuel acc l c _ hfuel
    cases fuel with
    | zero => omega
    | succ f => simp [digitLoop, peekc]
  | cons d ds' ih =>
    intro fuel acc l c hds hfuel
    cases fuel with
    | zero => omega
    | succ f =>
      have hd : isdigit d = true := hds d (List.mem_cons_self d ds')
      have hnl : d ≠ '\n' := isdigit_ne_nl hd
      rw [digitLoop]
      simp only [peekc, List.head?]
      simp [hd, nextc, consume1, hnl,
        ih f (acc ++ [d]) l (c + 1) (fun x hx => hds x (List.mem_cons_of_mem d hx)) (by simpa using hfuel)]
      omega

theorem mystod_digits (l : List Char) (h : ∀ x ∈ l, isdigit x = true) (hne : l ≠ []) :
    mystod (String.mk l) = some ((digitsToNat l : ℚ)) := by
  unfold mystod
  have ht : (String.mk l).data.takeWhile isdigit = l := List.takeWhile_eq_self_iff.mpr h
  have hd : (String.mk l).data.dropWhile isdigit = [] := List.dropWhile_eq_nil_iff.mpr h
  rw [ht, hd]
  simp [List.isEmpty_iff, hne]

theorem digitsToNat_cons_zero (l : List Char) : digitsToNat ('0' :: l) = digitsToNat l := rfl

theorem numberIntPart_zero (fuel : Nat) (ds : List Char) (l c : Nat) (sk : Bool) :
    numberIntPart fuel ⟨'0' :: ds, l, c, sk⟩
      = .ok (['0'], consume1 ⟨'0' :: ds, l, c, sk⟩ '0' ds) := by
  cases sk <;> simp [numberIntPart, has, peekc, nextc, skipRun, skipRunAux, isWsChar]

theorem numberFracPart_none (p : producer) (num : List Char)
    (h : (peekc p).1 ≠ some '.') :
    numberFracPart p num = .ok (num, (peekc p).2) := by
  simp [numberFracPart, has, h]

theorem numberExpPart_eof (fuel : Nat) (dnum : ℚ) (l c : Nat) :
    numberExpPart fuel dnum ⟨[], l, c, false⟩ = .ok (dnum, ⟨[], l, c, false⟩) := by
  simp [numberExpPart, has, peekc]

/-- C1 amended.  The integer part of a number may be a `'0'` followed by
further digits: the digit loop after the fraction check (line 254) runs in
every branch and extends the collected text, so `parse_number` consumes the
whole digit run and returns its value — for `"01"` it returns `1.0` rather
than failing. -/
theorem leading_zero_number_accepted (fuel : Nat) (ds : List Char)
    (hds : ∀ x ∈ ds, isdigit x = true) (hfuel : ds.length < fuel) :
    parse_number fuel ⟨'0' :: ds, 1, 1, false⟩
      = .ok ((digitsToNat ds : ℚ), ⟨[], 1, 2 + ds.length, false⟩) := by
  have hall : ∀ x ∈ '0' :: ds, isdigit x = true := by
    intro x hx
    rcases List.mem_cons.mp hx with h | h
    · subst h; decide
    · exact hds x h
  have hfrac : numberFracPart ⟨ds, 1, 2, false⟩ ['0'] = .ok (['0'], ⟨ds, 1, 2, false⟩) := by
    apply numberFracPart_none
    cases ds with
    | nil => simp [peekc]
    | cons d ds' =>
      have hd : isdigit d = true := hds d (List.mem_cons_self d ds')
      simp [peekc, isdigit_ne_dot hd]
  rw [parse_number]
  simp only [has, peekc, nextc, consume1, List.head?]
  norm_num [Bind.bind, Except.bind,
    show ('0' : Char) ≠ '-' from by decide, show ('0' : Char) ≠ '\n' from by decide,
    numberIntPart_zero, consume1, hfrac,
    digitLoop_all ds fuel ['0'] 1 2 hds hfuel,
    mystod_digits ('0' :: ds) hall (by simp), digitsToNat_cons_zero,
    numberExpPart_eof]

/-- C1 amended, witnessed at the concrete input `"01"` with fuel 100. -/
theorem leading_zero_number_accepted_witness :
    (∀ x ∈ ['1'], isdigit x = true) ∧ ([ '1' ].length < 100)
    ∧ parse_number 100 ⟨['0', '1'], 1, 1, false⟩
        = .ok ((digitsToNat ['1'] : ℚ), ⟨[], 1, 2 + ['1'].length, false⟩) :=
  ⟨by decide, by decide, leading_zero_number_accepted 100 ['1'] (by decide) (by decide)⟩

/-- C5 (code bug).  A number whose exponent marker is not followed by any
digit hands the empty exponent string to `std::stod`, which raises
`std::invalid_argument` — an exception that is *not* a `ParseError`:
`parse_number` on `"1e"` fails with that foreign exception kind. -/
theorem empty_exponent_raises_invalid_argument :
    parse_number 100 (mkProducer "1e") = .error .stdInvalidArgument
    ∧ ∀ l c : Nat, ∀ m : String, jerr.stdInvalidArgument ≠ jerr.parseError l c m := by
  refine ⟨rfl, ?_⟩
  intro l c m h
  cases h

/-- C8.  Number semantics: `parse_number` on `"-1.5e2"` yields exactly
`-150` and on `"0"` yields `0`; the exponent is applied by the source's
two-step multiply (`std::stod` of the integer+fraction text, then a
multiplication by `10^±exp`), which the embedding `parse_number` mirrors
stage for stage. -/
theorem number_fidelity :
    (parse_number 100 (mkProducer "-1.5e2")).map Prod.fst = .ok (-150)
    ∧ (parse_number 100 (mkProducer "0")).map Prod.fst = .ok 0 := by
  constructor
  · with_unfolding_all rfl
  · rfl

/-- C3 counterexample.  Parsing `"{\"a\":}"` does fail with "expected
value", but the recorded position is 1:7 — the position *after* the
`error` helper has drained the remaining stream — not 1:6, the column of
the `'}'` character at which the failure occurred: the `parse_error`
constructor reads the producer's position only after `error` has consumed
everything up to end-of-stream. -/
theorem error_position_after_drain :
    runParse 100 "\x7b\"a\":\x7d"
      = .error (.parseError 1 7 "expected valueuntil_eof=\"\x7d\"")
    ∧ ∀ m : String, runParse 100 "\x7b\"a\":\x7d" ≠ .error (.parseError 1 6 m) := by
  refine ⟨rfl, ?_⟩
  intro m h
  rw [show runParse 100 "\x7b\"a\":\x7d"
      = .error (.parseError 1 7 "expected valueuntil_eof=\"\x7d\"") from rfl] at h
  simp at h

/-- C3 amended.  Every `ParseError` raised through the `error` helper
carries the producer's line and column as they stand *after* the remaining
stream has been drained into the message — the position of the producer
with every remaining character consumed through `nextc` (`drainedP`) — and
in particular parsing `"{\"a\":}"` fails at reported location 1:7 (one past
the `'}'`) with a message containing "expected value". -/
theorem error_position_after_drain_amended :
    (∀ (p : producer) (msg : String), ∃ m : String,
        error p msg = .parseError (drainedP p).line (drainedP p).col m)
    ∧ runParse 100 "\x7b\"a\":\x7d"
        = .error (.parseError 1 7 "expected valueuntil_eof=\"\x7d\"")
    ∧ ∃ a b : String, "expected valueuntil_eof=\"\x7d\"" = a ++ "expected value" ++ b := by
  refine ⟨?_, rfl, "", "until_eof=\"\x7d\"", rfl⟩
  intro p msg
  rcases p with ⟨s, a, b, sk⟩
  refine ⟨msg ++ "until_eof=\"" ++ String.mk s ++ "\"", ?_⟩
  unfold error drainedP
  simp only [nextcIter_drain s a b sk]
  simp [drainAux_fst]

/-- C7.  The document entry point rejects every input whose first
non-whitespace character does not open an object: after the leading
whitespace skip, `parse_object`'s `expects('{')` consumes that character
and raises a `ParseError`. -/
theorem root_must_be_object (fuel : Nat) (s : String) (c : Char)
    (hc : firstNonWs s = some c) (hne : c ≠ '{') :
    ∃ l co : Nat, ∃ m : String, runParse (fuel + 1) s = .error (.parseError l co m) := by
  obtain ⟨rest, hrest⟩ : ∃ rest, s.data.dropWhile isWsChar = c :: rest := by
    unfold firstNonWs at hc
    cases hd : s.data.dropWhile isWsChar with
    | nil => rw [hd] at hc; simp at hc
    | cons x xs =>
      rw [hd] at hc
      simp at hc
      exact ⟨xs, by rw [hc]⟩
  have hwc : isWsChar c = false := dropWhile_head_false s.data hrest
  have hcn : c ≠ '\n' := by
    intro h; subst h; simp [isWsChar] at hwc
  rcases hsr : skipRunAux s.data 1 1 with ⟨str, L, C⟩
  have hstr : str = c :: rest := by
    have h1 := skipRunAux_fst s.data 1 1
    rw [hsr] at h1
    rw [hrest] at h1
    exact h1
  subst hstr
  refine ⟨L, C + 1,
    "parse error: '" ++ strOfCharOne '{' ++ "'(code=" ++ char_to_code '{'
      ++ ")\texpected, got: '" ++ strOfCharOne c ++ "'' (code=" ++ char_to_code c ++ ")", ?_⟩
  unfold runParse parse mkProducer skip_ws skipRun
  rw [parse_object]
  simp only [hsr]
  simp [expects, nextc, consume1, hcn, hne, Bind.bind, Except.bind]

/-- C7, witnessed at the concrete top-level array `"[1,2,3]"`. -/
theorem root_must_be_object_witness :
    firstNonWs "[1,2,3]" = some '[' ∧ '[' ≠ '{'
    ∧ ∃ l co : Nat, ∃ m : String, runParse 100 "[1,2,3]" = .error (.parseError l co m) :=
  ⟨by decide, by decide, root_must_be_object 99 "[1,2,3]" '[' (by decide) (by decide)⟩

/-- C4 counterexample.  The rendered message of a failing parse does not in
general have the exact shape
`'<line>:<column>: <message>until_eof="<remainder>"'`: parsing `"{x"` fails
through the `error` helper and its rendered `what()` text is the claimed
shape plus a trailing `'\n'` appended by the `parse_error` constructor, and
parsing `"@"` fails directly in `expects` and its rendered message contains
no `until_eof=` segment at all. -/
theorem rendered_message_has_trailing_newline :
    ((runParse 100 "\x7bx").mapError renderedWhat
        = .error (some ("1:3: expected keyuntil_eof=\"x\"" ++ "\n"))
      ∧ ("1:3: expected keyuntil_eof=\"x\"" ++ "\n") ≠ "1:3: expected keyuntil_eof=\"x\"")
    ∧ ∃ w : String, (runParse 100 "@").mapError renderedWhat = .error (some w)
        ∧ strContains w "until_eof=" = false := by
  refine ⟨⟨rfl, by decide⟩, ?_⟩
  refine ⟨parse_error_what 1 2
    ("parse error: '" ++ strOfCharOne '{' ++ "'(code=123)\texpected, got: '"
      ++ strOfCharOne '@' ++ "'' (code=64)"), rfl, by decide⟩

/-- C4 amended.  Every failure raised through the `error` helper renders
exactly as `'<line>:<column>: <message>until_eof="<all remaining unconsumed
characters>"'` followed by a single trailing newline, where the line and
column are those of the producer after the drain (`drainedP`); failing
parses that throw directly from `expects` never pass through `error`:
parsing `"@"` fails in `expects('{')` and its rendered message contains no
`until_eof=` segment. -/
theorem error_message_shape :
    (∀ (p : producer) (msg : String),
      renderedWhat (error p msg)
        = some (toString (drainedP p).line ++ ":" ++ toString (drainedP p).col ++ ": "
            ++ (msg ++ "until_eof=\"" ++ String.mk p.stream ++ "\"") ++ "\n"))
    ∧ ∃ w : String, (runParse 100 "@").mapError renderedWhat = .error (some w)
        ∧ strContains w "until_eof=" = false := by
  constructor
  · intro p msg
    rcases p with ⟨s, a, b, sk⟩
    unfold error renderedWhat parse_error_what drainedP
    simp only [nextcIter_drain s a b sk]
    simp [drainAux_fst]
  · refine ⟨parse_error_what 1 2
      ("parse error: '" ++ strOfCharOne '{' ++ "'(code=123)\texpected, got: '"
        ++ strOfCharOne '@' ++ "'' (code=64)"), rfl, by decide⟩

theorem stringLoop_content (content : List Char) :
    ∀ (fuel : Nat) (acc : List Char) (l c : Nat) (rest : List Char),
      (∀ x ∈ content, x ≠ '"' ∧ x ≠ '\\') → content.length < fuel →
      ∃ l' c' : Nat,
        stringLoop fuel acc ⟨content ++ '"' :: rest, l, c, false⟩
          = .ok (acc ++ content, ⟨'"' :: rest, l', c', false⟩) := by
  induction content with
  | nil =>
    intro fuel acc l c rest _ hfuel
    cases fuel with
    | zero => omega
    | succ f =>
      refine ⟨l, c, ?_⟩
      simp [stringLoop, has, peekc]
  | cons x xs ih =>
    intro fuel acc l c rest hall hfuel
    cases fuel with
    | zero => omega
    | succ f =>
      have hx := hall x (List.mem_cons_self x xs)
      have hlen : xs.length < f := by simpa using hfuel
      have hrec := fun l2 c2 => ih f (acc ++ [x]) l2 c2 rest
        (fun y hy => hall y (List.mem_cons_of_mem x hy)) hlen
      by_cases hnx : x = '\n'
      · subst hnx
        obtain ⟨l', c', hres⟩ := hrec (l + 1) 1
        refine ⟨l', c', ?_⟩
        rw [stringLoop]
        simp only [has, may_have, peekc, nextc, consume1, List.head?]
        simp [hx.1, hx.2]
        simpa [List.append_assoc] using hres
      · obtain ⟨l', c', hres⟩ := hrec l (c + 1)
        refine ⟨l', c', ?_⟩
        rw [stringLoop]
        simp only [has, may_have, peekc, nextc, consume1, List.head?]
        simp [hx.1, hx.2, hnx]
        simpa [List.append_assoc] using hres

/-- C9.  Whitespace inside a string literal is content, never skipped:
`skip_ws(false)` right after the opening quote turns whitespace
insignificance off, so `parse_string` returns exactly the characters
between the quotes (for any content free of `'"'` and `'\\'`, which is
every `"<ws>x<ws>"` literal), whitespace included. -/
theorem string_whitespace_preserved (fuel : Nat) (content rest : List Char)
    (l c : Nat) (sk : Bool)
    (hall : ∀ x ∈ content, x ≠ '"' ∧ x ≠ '\\') (hfuel : content.length < fuel) :
    ∃ p' : producer,
      parse_string fuel ⟨'"' :: (content ++ '"' :: rest), l, c, sk⟩
        = .ok (String.mk content, p') := by
  obtain ⟨l', c', hloop⟩ := stringLoop_content content fuel [] l (c + 1) rest hall hfuel
  refine ⟨skip_ws ⟨rest, l', c' + 1, false⟩ true, ?_⟩
  unfold parse_string
  simp [expects, nextc, consume1, skip_ws, Bind.bind, Except.bind, hloop]

/-- C9, witnessed at the literal `"\" a \""`, whose content is whitespace,
`'a'`, whitespace. -/
theorem string_whitespace_preserved_witness :
    (∀ x ∈ [' ', 'a', ' '], x ≠ '"' ∧ x ≠ '\\') ∧ [' ', 'a', ' '].length < 100
    ∧ ∃ p' : producer, parse_string 100 (mkProducer "\" a \"") = .ok (" a ", p') :=
  ⟨by decide, by decide,
    string_whitespace_preserved 100 [' ', 'a', ' '] [] 1 1 false (by decide) (by decide)⟩

theorem extendP_stream (p : producer) (t : List Char) :
    (extendP p t).stream = p.stream ++ t := rfl

theorem skipRun_nil {p : producer} (h : p.stream = []) : skipRun p = p := by
  cases p with
  | mk s l c sk => cases h; rfl

theorem peekc_nil {p : producer} (h : p.stream = []) : peekc p = (none, p) := by
  unfold peekc
  by_cases hs : p.skip <;> simp [hs, skipRun_nil h, h]

theorem nextc_nil {p : producer} (h : p.stream = []) : nextc p = (noChar, p) := by
  unfold nextc
  rw [h]

theorem nextc_cons {p : producer} {ch : Char} {cs : List Char} (h : p.stream = ch :: cs) :
    nextc p = (ch, consume1 p ch cs) := by
  unfold nextc
  rw [h]

theorem consume1_extend (p : producer) (ch : Char) (cs t : List Char) :
    consume1 (extendP p t) ch (cs ++ t) = extendP (consume1 p ch cs) t := by
  by_cases h : ch = '\n' <;> simp [consume1, extendP, h]

theorem nextc_extend {p : producer} {ch : Char} {cs : List Char} (t : List Char)
    (h : p.stream = ch :: cs) :
    nextc (extendP p t) = (ch, extendP (consume1 p ch cs) t) := by
  have hs : (extendP p t).stream = ch :: (cs ++ t) := by simp [extendP, h]
  rw [nextc_cons hs, consume1_extend]

theorem skipRunAux_extend (l : List Char) :
    ∀ (a b : Nat) (t str : List Char) (L C : Nat),
      skipRunAux l a b = (str, L, C) → str ≠ [] →
      skipRunAux (l ++ t) a b = (str ++ t, L, C) := by
  induction l with
  | nil =>
    intro a b t str L C h hne
    simp [skipRunAux] at h
    exact (hne h.1).elim
  | cons ch cs ih =>
    intro a b t str L C h hne
    by_cases hw : isWsChar ch
    · by_cases hn : ch = '\n'
      · subst hn
        rw [skipRunAux] at h
        simp [isWsChar] at h
        simpa [skipRunAux, isWsChar] using ih (a + 1) 1 t str L C h hne
      · rw [skipRunAux] at h
        simp [hw, hn] at h
        simpa [skipRunAux, hw, hn] using ih a (b + 1) t str L C h hne
    · rw [skipRunAux] at h
      simp [hw] at h
      obtain ⟨h1, h2, h3⟩ := h
      subst h1; subst h2; subst h3
      simp [skipRunAux, hw]

theorem skipRun_extend {p : producer} (t : List Char) (h : (skipRun p).stream ≠ []) :
    skipRun (extendP p t) = extendP (skipRun p) t := by
  rcases hsr : skipRunAux p.stream p.line p.col with ⟨str, L, C⟩
  have hstr : str ≠ [] := by
    intro hq
    apply h
    simp [skipRun, hsr, hq]
  have h2 := skipRunAux_extend p.stream p.line p.col t str L C hsr hstr
  simp [skipRun, extendP, hsr, h2]

theorem peekc_extend {p p₁ : producer} {ch : Char} (t : List Char)
    (h : peekc p = (some ch, p₁)) :
    peekc (extendP p t) = (some ch, extendP p₁ t) := by
  unfold peekc at h ⊢
  by_cases hs : p.skip
  · simp only [hs, if_pos] at h
    have hsk : (extendP p t).skip = p.skip := rfl
    simp only [hsk, hs, if_pos]
    have hne : (skipRun p).stream ≠ [] := by
      intro hq
      rw [hq] at h
      simp at h
    rw [skipRun_extend t hne]
    have h1 : (skipRun p).stream.head? = some ch := by
      have := congrArg Prod.fst h
      simpa using this
    have h2 : skipRun p = p₁ := by
      have := congrArg Prod.snd h
      simpa using this
    rcases hd : (skipRun p).stream with _ | ⟨x, xs⟩
    · rw [hd] at h1; simp at h1
    · rw [hd] at h1
      simp at h1
      subst h1
      simp [extendP, hd, ← h2]
  · simp only [hs, if_neg, Bool.false_eq_true, not_false_eq_true] at h
    have hsk : (extendP p t).skip = p.skip := rfl
    simp only [hsk, hs, if_neg, Bool.false_eq_true, not_false_eq_true]
    have h1 : p.stream.head? = some ch := by
      have := congrArg Prod.fst h
      simpa using this
    have h2 : p = p₁ := by
      have := congrArg Prod.snd h
      simpa using this
    rcases hd : p.stream with _ | ⟨x, xs⟩
    · rw [hd] at h1; simp at h1
    · rw [hd] at h1
      simp at h1
      subst h1
      simp [extendP, hd, ← h2]

theorem peekc_none_stream {p p₁ : producer} (h : peekc p = (none, p₁)) :
    p₁.stream = [] := by
  unfold peekc at h
  have h1 := congrArg Prod.fst h
  have h2 := congrArg Prod.snd h
  simp at h1 h2
  rw [← h2]
  exact h1

theorem peekc_some_stream {p p₁ : producer} {ch : Char} (h : peekc p = (some ch, p₁)) :
    ∃ cs, p₁.stream = ch :: cs := by
  unfold peekc at h
  have h1 := congrArg Prod.fst h
  have h2 := congrArg Prod.snd h
  simp at h1 h2
  rw [← h2]
  rcases hd : (if p.skip then skipRun p else p).stream with _ | ⟨x, xs⟩
  · rw [hd] at h1; simp at h1
  · rw [hd] at h1; simp at h1; subst h1; exact ⟨xs, rfl⟩



theorem expects_ok_stream {p p₂ : producer} {ch0 : Char}
    (hok : expects p ch0 = .ok p₂) (hch : ch0 ≠ noChar) :
    ∃ cs, p.stream = ch0 :: cs ∧ p₂ = consume1 p ch0 cs := by
  rcases hd : p.stream with _ | ⟨x, xs⟩
  · rw [expects, nextc_nil hd] at hok
    simp [Ne.symm hch] at hok
  · rw [expects, nextc_cons hd] at hok
    by_cases hx : x = ch0
    · subst hx
      simp at hok
      exact ⟨xs, rfl, hok.symm⟩
    · simp [hx] at hok

theorem expects_extend {p p₂ : producer} {ch0 : Char} (t : List Char)
    (hok : expects p ch0 = .ok p₂) (hch : ch0 ≠ noChar) :
    expects (extendP p t) ch0 = .ok (extendP p₂ t) := by
  obtain ⟨cs, hstream, hcons⟩ := expects_ok_stream hok hch
  rw [expects, nextc_extend t hstream]
  simp [hcons]

theorem matchChars_extend (cs : List Char) :
    ∀ (p p₂ : producer) (t : List Char), (∀ ch ∈ cs, ch ≠ noChar) →
      matchChars p cs = .ok p₂ → matchChars (extendP p t) cs = .ok (extendP p₂ t) := by
  induction cs with
  | nil =>
    intro p p₂ t _ h
    simp [matchChars] at h ⊢
    rw [h]
  | cons c cs' ih =>
    intro p p₂ t hall h
    rw [matchChars] at h
    rcases he : expects p c with e | pm
    · rw [he] at h; simp [Bind.bind, Except.bind] at h
    · rw [he] at h
      simp only [Bind.bind, Except.bind] at h
      rw [matchChars]
      rw [expects_extend t he (hall c (List.mem_cons_self c cs'))]
      simp only [Bind.bind, Except.bind]
      exact ih pm p₂ t (fun ch hch => hall ch (List.mem_cons_of_mem c hch)) h

theorem stringLoop_nilStream :
    ∀ (fuel : Nat) (acc : List Char) (p : producer), p.stream = [] →
      ∀ r, stringLoop fuel acc p ≠ .ok r := by
  intro fuel
  induction fuel with
  | zero => intro acc p h r; simp [stringLoop]
  | succ f ih =>
    intro acc p h r
    rw [stringLoop]
    simp [has, may_have, peekc_nil h, nextc_nil h]
    exact ih (acc ++ [noChar]) p h r

theorem digitLoop_nilStream (f : Nat) (acc : List Char) (p : producer) (h : p.stream = []) :
    digitLoop (f + 1) acc p = .ok (acc, p) := by
  rw [digitLoop]
  simp [peekc_nil h]

theorem numberIntPart_nilStream (fuel : Nat) (p : producer) (h : p.stream = []) :
    numberIntPart fuel p = .error (error p "expected number") := by
  simp [numberIntPart, has, peekc_nil h]

theorem numberFracPart_nilStream (p : producer) (num : List Char) (h : p.stream = []) :
    numberFracPart p num = .ok (num, p) := by
  simp [numberFracPart, has, peekc_nil h]

theorem numberExpPart_nilStream (fuel : Nat) (dnum : ℚ) (p : producer) (h : p.stream = []) :
    numberExpPart fuel dnum p = .ok (dnum, p) := by
  simp [numberExpPart, has, peekc_nil h]



theorem stringLoop_extend :
    ∀ (fuel : Nat) (acc : List Char) (p p' : producer) (r : List Char) (t : List Char),
      stringLoop fuel acc p = .ok (r, p') →
      stringLoop fuel acc (extendP p t) = .ok (r, extendP p' t) := by
  intro fuel
  induction fuel with
  | zero => intro acc p p' r t h; simp [stringLoop] at h
  | succ f ih =>
    intro acc p p' r t h
    rcases hpk : peekc p with ⟨c?, p₁⟩
    rw [stringLoop] at h
    simp only [has, may_have, hpk] at h
    rw [stringLoop]
    cases c? with
    | none =>
      exfalso
      have h₁ : p₁.stream = [] := peekc_none_stream hpk
      rw [peekc_nil h₁] at h
      simp [nextc_nil h₁] at h
      exact stringLoop_nilStream f (acc ++ [noChar]) p₁ h₁ _ h
    | some ch =>
      by_cases hq : ch = '"'
      · subst hq
        simp only [has, may_have, peekc_extend t hpk]
        simp at h ⊢
        exact ⟨h.1, by rw [h.2]⟩
      · rcases hpk2 : peekc p₁ with ⟨c2?, p₂⟩
        rw [hpk2] at h
        simp only [has, may_have, peekc_extend t hpk]
        cases c2? with
        | none =>
          exfalso
          have h₂ : p₂.stream = [] := peekc_none_stream hpk2
          simp [hq, nextc_nil h₂] at h
          exact stringLoop_nilStream f (acc ++ [noChar]) p₂ h₂ _ h
        | some c2 =>
          obtain ⟨cs₂, hcs₂⟩ := peekc_some_stream hpk2
          rw [peekc_extend t hpk2]
          by_cases hb : c2 = '\\'
          · subst hb
            simp [hq, nextc_cons hcs₂] at h
            rcases hcs₃ : (consume1 p₂ '\\' cs₂).stream with _ | ⟨c3, cs3⟩
            · exfalso
              rw [nextc_nil hcs₃] at h
              simp at h
              exact stringLoop_nilStream f _ _ hcs₃ _ h
            · rw [nextc_cons hcs₃] at h
              simp at h
              simp [hq, nextc_extend t hcs₂, nextc_extend t hcs₃]
              exact ih _ _ _ _ t h
          · simp [hq, hb, nextc_cons hcs₂] at h
            simp [hq, hb, nextc_extend t hcs₂]
            exact ih _ _ _ _ t h



theorem skip_ws_false_extend (p : producer) (t : List Char) :
    skip_ws (extendP p t) false = extendP (skip_ws p false) t := by
  cases p; rfl

theorem skip_ws_true_extend {p : producer} (t : List Char)
    (h : (skip_ws p true).stream ≠ []) :
    skip_ws (extendP p t) true = extendP (skip_ws p true) t := by
  have h1 : skip_ws p true = skipRun { p with skip := true } := by simp [skip_ws]
  have h2 : (skipRun { p with skip := true }).stream ≠ [] := by rw [← h1]; exact h
  have h3 : extendP { p with skip := true } t = { extendP p t with skip := true } := by
    cases p; rfl
  calc skip_ws (extendP p t) true
      = skipRun { extendP p t with skip := true } := by simp [skip_ws]
    _ = skipRun (extendP { p with skip := true } t) := by rw [h3]
    _ = extendP (skipRun { p with skip := true }) t := skipRun_extend t h2
    _ = extendP (skip_ws p true) t := by rw [← h1]

theorem digitLoop_extend :
    ∀ (fuel : Nat) (acc : List Char) (p p' : producer) (r : List Char) (t : List Char),
      digitLoop fuel acc p = .ok (r, p') → p'.stream ≠ [] →
      digitLoop fuel acc (extendP p t) = .ok (r, extendP p' t) := by
  intro fuel
  induction fuel with
  | zero => intro acc p p' r t h _; simp [digitLoop] at h
  | succ f ih =>
    intro acc p p' r t h hne
    rcases hpk : peekc p with ⟨c?, p₁⟩
    rw [digitLoop] at h
    rw [hpk] at h
    cases c? with
    | none =>
      exfalso
      simp at h
      apply hne
      rw [← h.2]
      exact peekc_none_stream hpk
    | some ch =>
      obtain ⟨cs, hcs⟩ := peekc_some_stream hpk
      rw [digitLoop, peekc_extend t hpk]
      by_cases hd : isdigit ch
      · simp [hd, nextc_cons hcs] at h
        simp [hd, nextc_extend t hcs]
        exact ih _ _ _ _ t h hne
      · simp [hd] at h ⊢
        exact ⟨h.1, by rw [h.2]⟩

theorem parse_string_extend {fuel : Nat} {p p' : producer} {s : String} (t : List Char)
    (h : parse_string fuel p = .ok (s, p')) (hne : p'.stream ≠ []) :
    parse_string fuel (extendP p t) = .ok (s, extendP p' t) := by
  unfold parse_string at h ⊢
  rcases he : expects p '"' with e | p₁
  · rw [he] at h; simp [Bind.bind, Except.bind] at h
  · rw [he] at h
    rw [expects_extend t he (by decide)]
    simp only [Bind.bind, Except.bind] at h ⊢
    rcases hl : stringLoop fuel [] (skip_ws p₁ false) with e | ⟨acc, p₂⟩
    · rw [hl] at h; simp at h
    · rw [hl] at h
      rw [skip_ws_false_extend, stringLoop_extend fuel [] (skip_ws p₁ false) p₂ acc t hl]
      simp only at h ⊢
      rcases he2 : expects p₂ '"' with e | p₃
      · rw [he2] at h; simp at h
      · rw [he2] at h
        rw [expects_extend t he2 (by decide)]
        simp only at h ⊢
        have hsp : s = String.mk acc ∧ p' = skip_ws p₃ true := by
          have := h
          simp at this
          exact ⟨this.1.symm, this.2.symm⟩
        obtain ⟨hs, hp⟩ := hsp
        subst hs
        subst hp
        rw [skip_ws_true_extend t hne]

theorem parse_bool_extend {p p' : producer} {b : Bool} (t : List Char)
    (h : parse_bool p = .ok (b, p')) :
    parse_bool (extendP p t) = .ok (b, extendP p' t) := by
  unfold parse_bool at h ⊢
  simp only [has] at h ⊢
  rcases hpk : peekc p with ⟨c?, p₁⟩
  simp only [hpk] at h
  cases c? with
  | none =>
    exfalso
    have h₁ : p₁.stream = [] := peekc_none_stream hpk
    simp [peekc_nil h₁] at h
  | some ch =>
    simp only [peekc_extend t hpk]
    by_cases ht : ch = 't'
    · subst ht
      simp only [decide_eq_true_eq, Option.some.injEq, if_pos rfl] at h ⊢
      rcases hm : match_string p₁ "true" with e | pm
      · simp only [hm] at h; simp [Bind.bind, Except.bind] at h
      · simp only [hm] at h
        unfold match_string at hm ⊢
        rw [matchChars_extend _ _ _ t (by decide) hm]
        simp [Bind.bind, Except.bind] at h ⊢
        exact ⟨h.1, by rw [h.2]⟩
    · simp only [decide_eq_true_eq, Option.some.injEq] at h ⊢
      rw [if_neg ht] at h ⊢
      rcases hpk2 : peekc p₁ with ⟨c2?, p₂⟩
      simp only [hpk2] at h
      cases c2? with
      | none =>
        exfalso
        simp at h
      | some c2 =>
        simp only [peekc_extend t hpk2]
        by_cases hf : c2 = 'f'
        · subst hf
          simp only [if_pos rfl] at h ⊢
          rcases hm : match_string p₂ "false" with e | pm
          · simp only [hm] at h; simp [Bind.bind, Except.bind] at h
          · simp only [hm] at h
            unfold match_string at hm ⊢
            rw [matchChars_extend _ _ _ t (by decide) hm]
            simp [Bind.bind, Except.bind] at h ⊢
            exact ⟨h.1, by rw [h.2]⟩
        · simp [hf] at h



theorem parse_null_extend {p p' : producer} (t : List Char)
    (h : parse_null p = .ok p') :
    parse_null (extendP p t) = .ok (extendP p' t) := by
  unfold parse_null at h ⊢
  simp only [has] at h ⊢
  rcases hpk : peekc p with ⟨c?, p₁⟩
  simp only [hpk] at h
  cases c? with
  | none =>
    exfalso
    have h₁ : p₁.stream = [] := peekc_none_stream hpk
    simp [peekc_nil h₁] at h
  | some ch =>
    simp only [peekc_extend t hpk]
    by_cases hn : ch = 'n'
    · subst hn
      simp only [decide_eq_true_eq, Option.some.injEq, if_pos rfl] at h ⊢
      unfold match_string at h ⊢
      exact matchChars_extend _ _ _ t (by decide) h
    · simp [hn] at h

theorem numberIntPart_extend {fuel : Nat} {p p' : producer} {num : List Char} (t : List Char)
    (h : numberIntPart fuel p = .ok (num, p')) (hne : p'.stream ≠ []) :
    numberIntPart fuel (extendP p t) = .ok (num, extendP p' t) := by
  unfold numberIntPart at h ⊢
  simp only [has] at h ⊢
  rcases hpk : peekc p with ⟨c?, p₁⟩
  simp only [hpk] at h
  cases c? with
  | none =>
    exfalso
    have h₁ : p₁.stream = [] := peekc_none_stream hpk
    simp [peekc_nil h₁] at h
  | some ch =>
    obtain ⟨cs, hcs⟩ := peekc_some_stream hpk
    simp only [peekc_extend t hpk]
    by_cases h0 : ch = '0'
    · subst h0
      simp only [decide_eq_true_eq, Option.some.injEq, if_pos rfl] at h ⊢
      simp [nextc_cons hcs] at h
      simp [nextc_extend t hcs]
      exact ⟨h.1, by rw [h.2]⟩
    · simp only [decide_eq_true_eq, Option.some.injEq] at h ⊢
      rw [if_neg h0] at h ⊢
      rcases hpk2 : peekc p₁ with ⟨c2?, p₂⟩
      simp only [hpk2] at h
      cases c2? with
      | none => simp at h
      | some c2 =>
        obtain ⟨cs₂, hcs₂⟩ := peekc_some_stream hpk2
        simp only [peekc_extend t hpk2]
        by_cases hr : ('0' < c2 && c2 ≤ '9') = true
        · simp only [hr, if_pos] at h ⊢
          simp [nextc_cons hcs₂] at h
          simp [nextc_extend t hcs₂]
          exact digitLoop_extend fuel _ _ _ _ t h hne
        · simp [hr] at h

theorem numberFracPart_extend {p p' : producer} {num num' : List Char} (t : List Char)
    (h : numberFracPart p num = .ok (num', p')) (hne : p'.stream ≠ []) :
    numberFracPart (extendP p t) num = .ok (num', extendP p' t) := by
  unfold numberFracPart at h ⊢
  simp only [has] at h ⊢
  rcases hpk : peekc p with ⟨c?, p₁⟩
  simp only [hpk] at h
  cases c? with
  | none =>
    exfalso
    simp at h
    apply hne
    rw [← h.2]
    exact peekc_none_stream hpk
  | some ch =>
    obtain ⟨cs, hcs⟩ := peekc_some_stream hpk
    simp only [peekc_extend t hpk]
    by_cases hdot : ch = '.'
    · subst hdot
      simp only [decide_eq_true_eq, Option.some.injEq, if_pos rfl] at h ⊢
      simp only [nextc_cons hcs] at h
      simp only [nextc_extend t hcs]
      rcases hpk2 : peekc (consume1 p₁ '.' cs) with ⟨c2?, p₂⟩
      simp only [hpk2] at h
      cases c2? with
      | none => simp at h
      | some c2 =>
        obtain ⟨cs₂, hcs₂⟩ := peekc_some_stream hpk2
        simp only [peekc_extend t hpk2]
        by_cases hd2 : isdigit c2 = true
        · simp only [hd2, if_pos] at h ⊢
          simp [nextc_cons hcs₂] at h
          simp [nextc_extend t hcs₂]
          exact ⟨h.1, by rw [h.2]⟩
        · simp [hd2] at h
    · simp [hdot] at h ⊢
      exact ⟨h.1, by rw [h.2]⟩



theorem numberExpDigits_extend {fuel : Nat} {dnum q : ℚ} {op : Char} {p p' : producer}
    (t : List Char) (h : numberExpDigits fuel dnum op p = .ok (q, p'))
    (hne : p'.stream ≠ []) :
    numberExpDigits fuel dnum op (extendP p t) = .ok (q, extendP p' t) := by
  unfold numberExpDigits at h ⊢
  rcases hdl : digitLoop fuel [] p with e | ⟨exp, pz⟩
  · rw [hdl] at h; simp [Bind.bind, Except.bind] at h
  · rw [hdl] at h
    simp only [Bind.bind, Except.bind] at h ⊢
    rcases hst : mystod (String.mk exp) with _ | d
    · rw [hst] at h; simp at h
    · rw [hst] at h
      simp at h
      obtain ⟨hq, hp⟩ := h
      subst hp
      rw [digitLoop_extend fuel [] p pz exp t hdl hne]
      simp [hst, hq]

theorem numberExpDigits_nilStream {fuel : Nat} (dnum : ℚ) (op : Char) (p : producer)
    (h : p.stream = []) : ∀ r, numberExpDigits fuel dnum op p ≠ .ok r := by
  intro r
  unfold numberExpDigits
  cases fuel with
  | zero => simp [digitLoop, Bind.bind, Except.bind]
  | succ f =>
    rw [digitLoop_nilStream f [] p h]
    simp [Bind.bind, Except.bind, mystod]

theorem numberExpTail_extend {fuel : Nat} {dnum q : ℚ} {p p' : producer} (t : List Char)
    (h : numberExpTail fuel dnum p = .ok (q, p')) (hne : p'.stream ≠ []) :
    numberExpTail fuel dnum (extendP p t) = .ok (q, extendP p' t) := by
  unfold numberExpTail at h ⊢
  simp only [has] at h ⊢
  rcases hpk : peekc p with ⟨c?, p₁⟩
  simp only [hpk] at h
  cases c? with
  | none =>
    exfalso
    have h₁ : p₁.stream = [] := peekc_none_stream hpk
    simp [peekc_nil h₁] at h
    exact numberExpDigits_nilStream dnum '+' p₁ h₁ _ h
  | some ch =>
    obtain ⟨cs, hcs⟩ := peekc_some_stream hpk
    simp only [peekc_extend t hpk]
    by_cases hm : ch = '-'
    · subst hm
      simp only [decide_eq_true_eq, Option.some.injEq, if_pos rfl, if_pos] at h ⊢
      simp only [nextc_cons hcs] at h
      simp only [nextc_extend t hcs]
      exact numberExpDigits_extend t h hne
    · simp only [decide_eq_true_eq, Option.some.injEq] at h ⊢
      rw [if_neg hm] at h ⊢
      rcases hpk2 : peekc p₁ with ⟨c2?, p₂⟩
      simp only [hpk2] at h
      cases c2? with
      | none =>
        exfalso
        have h₂ : p₂.stream = [] := peekc_none_stream hpk2
        simp at h
        exact numberExpDigits_nilStream dnum '+' p₂ h₂ _ h
      | some c2 =>
        obtain ⟨cs₂, hcs₂⟩ := peekc_some_stream hpk2
        simp only [peekc_extend t hpk2]
        by_cases hp2 : c2 = '+'
        · subst hp2
          simp only [decide_eq_true_eq, Option.some.injEq, if_pos rfl] at h ⊢
          simp only [nextc_cons hcs₂] at h
          simp only [nextc_extend t hcs₂]
          exact numberExpDigits_extend t h hne
        · simp only [decide_eq_true_eq, Option.some.injEq] at h ⊢
          rw [if_neg hp2] at h ⊢
          exact numberExpDigits_extend t h hne

theorem numberExpPart_extend {fuel : Nat} {dnum q : ℚ} {p p' : producer} (t : List Char)
    (h : numberExpPart fuel dnum p = .ok (q, p')) (hne : p'.stream ≠ []) :
    numberExpPart fuel dnum (extendP p t) = .ok (q, extendP p' t) := by
  unfold numberExpPart at h ⊢
  simp only [has] at h ⊢
  rcases hpk : peekc p with ⟨c?, p₁⟩
  simp only [hpk] at h
  cases c? with
  | none =>
    exfalso
    have h₁ : p₁.stream = [] := peekc_none_stream hpk
    simp [peekc_nil h₁] at h
    apply hne
    rw [← h.2]
    exact h₁
  | some ch =>
    obtain ⟨cs, hcs⟩ := peekc_some_stream hpk
    simp only [peekc_extend t hpk]
    by_cases he : ch = 'e'
    · subst he
      simp [nextc_cons hcs] at h
      simp [nextc_extend t hcs]
      exact numberExpTail_extend t h hne
    · simp only [decide_eq_true_eq, Option.some.injEq] at h ⊢
      rw [if_neg he] at h ⊢
      rcases hpk2 : peekc p₁ with ⟨c2?, p₂⟩
      simp only [hpk2] at h
      cases c2? with
      | none =>
        exfalso
        have h₂ : p₂.stream = [] := peekc_none_stream hpk2
        simp at h
        apply hne
        rw [← h.2]
        exact h₂
      | some c2 =>
        obtain ⟨cs₂, hcs₂⟩ := peekc_some_stream hpk2
        simp only [peekc_extend t hpk2]
        by_cases hE : c2 = 'E'
        · subst hE
          simp [nextc_cons hcs₂] at h
          simp [nextc_extend t hcs₂]
          exact numberExpTail_extend t h hne
        · simp [hE] at h ⊢
          exact ⟨h.1, by rw [h.2]⟩



theorem parse_number_extend {fuel : Nat} {p p' : producer} {q : ℚ} (t : List Char)
    (h : parse_number fuel p = .ok (q, p')) (hne : p'.stream ≠ []) :
    parse_number fuel (extendP p t) = .ok (q, extendP p' t) := by
  unfold parse_number at h ⊢
  simp only [has] at h ⊢
  have tail : ∀ (p₂ : producer) (neg : Bool),
      (do
        let (num, pz) ← numberIntPart fuel p₂
        let (num, pz) ← numberFracPart pz num
        let (num, pz) ← digitLoop fuel num pz
        match mystod (String.mk num) with
        | none => (Except.error .stdInvalidArgument : Except jerr (ℚ × producer))
        | some dnum => do
          let (qq, pz) ← numberExpPart fuel dnum pz
          Except.ok (if neg then -qq else qq, pz)) = .ok (q, p') →
      (do
        let (num, pz) ← numberIntPart fuel (extendP p₂ t)
        let (num, pz) ← numberFracPart pz num
        let (num, pz) ← digitLoop fuel num pz
        match mystod (String.mk num) with
        | none => (Except.error .stdInvalidArgument : Except jerr (ℚ × producer))
        | some dnum => do
          let (qq, pz) ← numberExpPart fuel dnum pz
          Except.ok (if neg then -qq else qq, pz)) = .ok (q, extendP p' t) := by
    intro p₂ neg hh
    rcases hip : numberIntPart fuel p₂ with e | ⟨num, p₃⟩
    · rw [hip] at hh; simp [Bind.bind, Except.bind] at hh
    · rw [hip] at hh
      simp only [Bind.bind, Except.bind] at hh ⊢
      by_cases h₃ : p₃.stream = []
      · exfalso
        rw [numberFracPart_nilStream p₃ num h₃] at hh
        try simp only at hh
        cases fuel with
        | zero => simp [digitLoop] at hh
        | succ f =>
          rw [digitLoop_nilStream f num p₃ h₃] at hh
          try simp only at hh
          rcases hst : mystod (String.mk num) with _ | dnum
          · rw [hst] at hh; simp at hh
          · rw [hst] at hh
            try simp only at hh
            rw [numberExpPart_nilStream (f + 1) dnum p₃ h₃] at hh
            simp at hh
            apply hne
            rw [← hh.2]
            exact h₃
      · rw [numberIntPart_extend t hip h₃]
        try simp only at hh
        try simp only
        rcases hfp : numberFracPart p₃ num with e | ⟨num₂, p₄⟩
        · rw [hfp] at hh; simp at hh
        · rw [hfp] at hh
          try simp only at hh
          by_cases h₄ : p₄.stream = []
          · exfalso
            cases fuel with
            | zero => simp [digitLoop] at hh
            | succ f =>
              rw [digitLoop_nilStream f num₂ p₄ h₄] at hh
              try simp only at hh
              rcases hst : mystod (String.mk num₂) with _ | dnum
              · rw [hst] at hh; simp at hh
              · rw [hst] at hh
                try simp only at hh
                rw [numberExpPart_nilStream (f + 1) dnum p₄ h₄] at hh
                simp at hh
                apply hne
                rw [← hh.2]
                exact h₄
          · rw [numberFracPart_extend t hfp h₄]
            try simp only at hh
            try simp only
            rcases hdl : digitLoop fuel num₂ p₄ with e | ⟨num₃, p₅⟩
            · rw [hdl] at hh; simp at hh
            · rw [hdl] at hh
              try simp only at hh
              by_cases h₅ : p₅.stream = []
              · exfalso
                rcases hst : mystod (String.mk num₃) with _ | dnum
                · rw [hst] at hh; simp at hh
                · rw [hst] at hh
                  try simp only at hh
                  rw [numberExpPart_nilStream fuel dnum p₅ h₅] at hh
                  simp at hh
                  apply hne
                  rw [← hh.2]
                  exact h₅
              · rw [digitLoop_extend fuel num₂ p₄ p₅ num₃ t hdl h₅]
                try simp only at hh
                try simp only
                rcases hst : mystod (String.mk num₃) with _ | dnum
                · rw [hst] at hh; simp at hh
                · rw [hst] at hh
                  try simp only at hh
                  simp only [hst]
                  rcases hep : numberExpPart fuel dnum p₅ with e | ⟨q₀, p₆⟩
                  · rw [hep] at hh; simp at hh
                  · rw [hep] at hh
                    try simp only at hh
                    simp at hh
                    obtain ⟨hq, hp⟩ := hh
                    subst hp
                    rw [numberExpPart_extend t hep hne]
                    simp [hq]
  rcases hpk : peekc p with ⟨c?, p₁⟩
  simp only [hpk] at h
  cases c? with
  | none =>
    exfalso
    have h₁ : p₁.stream = [] := peekc_none_stream hpk
    simp [numberIntPart_nilStream fuel p₁ h₁, Bind.bind, Except.bind] at h
  | some ch =>
    simp only [peekc_extend t hpk]
    by_cases hm : ch = '-'
    · subst hm
      obtain ⟨cs, hcs⟩ := peekc_some_stream hpk
      simp only [decide_eq_true_eq, Option.some.injEq, if_pos rfl, nextc_cons hcs] at h
      simp only [decide_eq_true_eq, Option.some.injEq, if_pos rfl, nextc_extend t hcs]
      exact tail (consume1 p₁ '-' cs) true h
    · simp only [decide_eq_true_eq, Option.some.injEq] at h ⊢
      rw [if_neg hm] at h ⊢
      exact tail p₁ false h



theorem peekc_some_ne_nil {p p₁ : producer} {ch : Char} (h : peekc p = (some ch, p₁)) :
    p.stream ≠ [] := by
  intro hq
  rw [peekc_nil hq] at h
  simp at h

theorem parse_value_nilStream (fuel : Nat) (p : producer) (h : p.stream = []) :
    ∃ e, parse_value fuel p = .error e := by
  cases fuel with
  | zero => exact ⟨.diverge, rfl⟩
  | succ f =>
    refine ⟨error p "expected value", ?_⟩
    rw [parse_value]
    simp [has, peekc_nil h]

theorem arrayLoop_nilStream (fuel : Nat) (a : List value) (p : producer) (h : p.stream = []) :
    ∀ r, arrayLoop fuel a p ≠ .ok r := by
  intro r
  cases fuel with
  | zero => simp [arrayLoop]
  | succ f =>
    obtain ⟨e, he⟩ := parse_value_nilStream f p h
    rw [arrayLoop]
    simp [he, Bind.bind, Except.bind]

theorem objectLoop_nilStream (fuel : Nat) (o : List (String × value)) (p : producer)
    (h : p.stream = []) : ∀ r, objectLoop fuel o p ≠ .ok r := by
  intro r
  cases fuel with
  | zero => simp [objectLoop]
  | succ f =>
    rw [objectLoop]
    simp [has, peekc_nil h]



theorem parser_extend (fuel : Nat) :
    (∀ (p p' : producer) (v : value) (t : List Char),
        parse_value fuel p = .ok (v, p') → p'.stream ≠ [] →
        parse_value fuel (extendP p t) = .ok (v, extendP p' t))
    ∧ (∀ (a : List value) (p p' : producer) (r : List value) (t : List Char),
        arrayLoop fuel a p = .ok (r, p') → p'.stream ≠ [] →
        arrayLoop fuel a (extendP p t) = .ok (r, extendP p' t))
    ∧ (∀ (p p' : producer) (r : List value) (t : List Char),
        parse_array fuel p = .ok (r, p') →
        parse_array fuel (extendP p t) = .ok (r, extendP p' t))
    ∧ (∀ (o : List (String × value)) (p p' : producer) (r : List (String × value)) (t : List Char),
        objectLoop fuel o p = .ok (r, p') → p'.stream ≠ [] →
        objectLoop fuel o (extendP p t) = .ok (r, extendP p' t))
    ∧ (∀ (p p' : producer) (r : List (String × value)) (t : List Char),
        parse_object fuel p = .ok (r, p') →
        parse_object fuel (extendP p t) = .ok (r, extendP p' t)) := by
  induction fuel with
  | zero =>
    refine ⟨?_, ?_, ?_, ?_, ?_⟩
    · intro p p' v t h
      simp [parse_value] at h
    · intro a p p' r t h
      simp [arrayLoop] at h
    · intro p p' r t h
      simp [parse_array] at h
    · intro o p p' r t h
      simp [objectLoop] at h
    · intro p p' r t h
      simp [parse_object] at h
  | succ f ih =>
    obtain ⟨ihV, ihAL, ihPA, ihOL, ihPO⟩ := ih
    refine ⟨?_, ?_, ?_, ?_, ?_⟩
    · -- parse_value
      intro p p' v t h hne
      rw [parse_value] at h
      rw [parse_value]
      simp only [has] at h ⊢
      rcases hpk1 : peekc p with ⟨c1?, q₁⟩
      simp only [hpk1] at h
      cases c1? with
      | none =>
        exfalso
        have h₁ := peekc_none_stream hpk1
        simp [peekc_nil h₁] at h
      | some c1 =>
        simp only [peekc_extend t hpk1]
        by_cases hs1 : c1 = '"'
        · subst hs1
          simp only [decide_eq_true_eq, Option.some.injEq, if_pos rfl, Bind.bind, Except.bind] at h ⊢
          rcases hps : parse_string f q₁ with e | ⟨s, pz⟩
          · rw [hps] at h; simp at h
          · rw [hps] at h
            simp at h
            obtain ⟨hv, hp⟩ := h
            subst hp
            rw [parse_string_extend t hps hne]
            simp [hv]
        · simp only [decide_eq_true_eq, Option.some.injEq] at h ⊢
          rw [if_neg hs1] at h ⊢
          rcases hpk2 : peekc q₁ with ⟨c2?, q₂⟩
          simp only [hpk2] at h
          cases c2? with
          | none =>
            exfalso
            have h₂ := peekc_none_stream hpk2
            simp [peekc_nil h₂] at h
          | some c2 =>
            simp only [peekc_extend t hpk2]
            by_cases hs2 : c2 = '['
            · subst hs2
              simp only [decide_eq_true_eq, Option.some.injEq, if_pos rfl, Bind.bind, Except.bind] at h ⊢
              rcases ha : parse_array f q₂ with e | ⟨arr, pz⟩
              · rw [ha] at h; simp at h
              · rw [ha] at h
                simp at h
                obtain ⟨hv, hp⟩ := h
                subst hp
                rw [ihPA q₂ pz arr t ha]
                simp [hv]
            · simp only [decide_eq_true_eq, Option.some.injEq] at h ⊢
              rw [if_neg hs2] at h ⊢
              rcases hpk3 : peekc q₂ with ⟨c3?, q₃⟩
              simp only [hpk3] at h
              cases c3? with
              | none =>
                exfalso
                have h₃ := peekc_none_stream hpk3
                simp [peekc_nil h₃] at h
              | some c3 =>
                simp only [peekc_extend t hpk3]
                by_cases hs3 : c3 = '{'
                · subst hs3
                  simp only [decide_eq_true_eq, Option.some.injEq, if_pos rfl, Bind.bind, Except.bind] at h ⊢
                  rcases ho : parse_object f q₃ with e | ⟨obj, pz⟩
                  · rw [ho] at h; simp at h
                  · rw [ho] at h
                    simp at h
                    obtain ⟨hv, hp⟩ := h
                    subst hp
                    rw [ihPO q₃ pz obj t ho]
                    simp [hv]
                · simp only [decide_eq_true_eq, Option.some.injEq] at h ⊢
                  rw [if_neg hs3] at h ⊢
                  rcases hpk4 : peekc q₃ with ⟨c4?, q₄⟩
                  simp only [hpk4] at h
                  cases c4? with
                  | none =>
                    exfalso
                    have h₄ := peekc_none_stream hpk4
                    simp [peekc_nil h₄] at h
                  | some c4 =>
                    simp only [peekc_extend t hpk4]
                    by_cases hs4 : c4 = 't'
                    · subst hs4
                      simp only [decide_eq_true_eq, Option.some.injEq, if_pos rfl, Bind.bind, Except.bind] at h ⊢
                      rcases hb : parse_bool q₄ with e | ⟨b, pz⟩
                      · simp [hb] at h
                      · simp [hb] at h
                        obtain ⟨hv, hp⟩ := h
                        subst hp
                        simp [parse_bool_extend t hb, hv]
                    · simp only [decide_eq_true_eq, Option.some.injEq] at h ⊢
                      rw [if_neg hs4] at h ⊢
                      rcases hpk5 : peekc q₄ with ⟨c5?, q₅⟩
                      simp only [hpk5] at h
                      cases c5? with
                      | none =>
                        exfalso
                        have h₅ := peekc_none_stream hpk5
                        simp [peekc_nil h₅] at h
                      | some c5 =>
                        simp only [peekc_extend t hpk5]
                        by_cases hs5 : c5 = 'f'
                        · subst hs5
                          simp only [decide_eq_true_eq, Option.some.injEq, if_pos rfl, Bind.bind, Except.bind] at h ⊢
                          rcases hb : parse_bool q₅ with e | ⟨b, pz⟩
                          · simp [hb] at h
                          · simp [hb] at h
                            obtain ⟨hv, hp⟩ := h
                            subst hp
                            simp [parse_bool_extend t hb, hv]
                        · simp only [decide_eq_true_eq, Option.some.injEq] at h ⊢
                          rw [if_neg hs5] at h ⊢
                          rcases hpk6 : peekc q₅ with ⟨c6?, q₆⟩
                          simp only [hpk6] at h
                          cases c6? with
                          | none =>
                            exfalso
                            have h₆ := peekc_none_stream hpk6
                            simp [peekc_nil h₆] at h
                          | some c6 =>
                            simp only [peekc_extend t hpk6]
                            by_cases hs6 : c6 = 'n'
                            · subst hs6
                              simp only [decide_eq_true_eq, Option.some.injEq, if_pos rfl, Bind.bind, Except.bind] at h ⊢
                              rcases hn : parse_null q₆ with e | pz
                              · simp [hn] at h
                              · simp only [hn] at h
                                simp at h
                                obtain ⟨hv, hp⟩ := h
                                subst hp
                                simp only [parse_null_extend t hn]
                                simp [hv]
                            · simp only [decide_eq_true_eq, Option.some.injEq] at h ⊢
                              rw [if_neg hs6] at h ⊢
                              rcases hpk7 : peekc q₆ with ⟨c7?, q₇⟩
                              simp only [hpk7] at h
                              cases c7? with
                              | none =>
                                exfalso
                                have h₇ := peekc_none_stream hpk7
                                simp [peekc_nil h₇] at h
                              | some c7 =>
                                simp only [peekc_extend t hpk7]
                                by_cases hs7 : c7 = '-'
                                · subst hs7
                                  simp only [Bind.bind, Except.bind] at h ⊢
                                  rcases hq : parse_number f q₇ with e | ⟨qv, pz⟩
                                  · simp [hq] at h
                                  · simp [hq] at h
                                    obtain ⟨hv, hp⟩ := h
                                    subst hp
                                    simp [parse_number_extend t hq hne, hv]
                                · simp only [decide_eq_true_eq, Option.some.injEq] at h ⊢
                                  rw [if_neg hs7] at h ⊢
                                  rcases hpk8 : peekc q₇ with ⟨c8?, q₈⟩
                                  simp only [hpk8] at h
                                  cases c8? with
                                  | none =>
                                    exfalso
                                    have h₈ := peekc_none_stream hpk8
                                    simp at h
                                  | some c8 =>
                                    simp only [peekc_extend t hpk8]
                                    by_cases hd8 : isdigit c8 = true
                                    · simp only [Bind.bind, Except.bind] at h ⊢
                                      rcases hq : parse_number f q₈ with e | ⟨qv, pz⟩
                                      · simp [hd8, hq] at h
                                      · simp [hd8, hq] at h
                                        obtain ⟨hv, hp⟩ := h
                                        subst hp
                                        simp [hd8, parse_number_extend t hq hne, hv]
                                    · simp [hd8] at h
    · -- arrayLoop
      intro a p p' r t h hne
      rw [arrayLoop] at h
      rw [arrayLoop]
      simp only [Bind.bind, Except.bind] at h ⊢
      rcases hv : parse_value f p with e | ⟨v, p₂⟩
      · rw [hv] at h; simp at h
      · rw [hv] at h
        try simp only at h
        simp only [has] at h ⊢
        rcases hpk : peekc p₂ with ⟨c?, p₃⟩
        simp only [hpk] at h
        cases c? with
        | none =>
          exfalso
          have h₃ := peekc_none_stream hpk
          simp at h
          apply hne
          rw [← h.2]
          exact h₃
        | some c =>
          have hp₂ : p₂.stream ≠ [] := peekc_some_ne_nil hpk
          rw [ihV p p₂ v t hv hp₂]
          try simp only
          simp only [peekc_extend t hpk]
          by_cases hc : c = ','
          · subst hc
            obtain ⟨cs₃, hcs₃⟩ := peekc_some_stream hpk
            simp [nextc_cons hcs₃] at h
            simp [nextc_extend t hcs₃]
            exact ihAL (a ++ [v]) _ _ _ t h hne
          · simp [hc] at h ⊢
            exact ⟨h.1, by rw [h.2]⟩
    · -- parse_array
      intro p p' r t h
      rw [parse_array] at h
      rw [parse_array]
      simp only [Bind.bind, Except.bind] at h ⊢
      rcases hex : expects p '[' with e | p₁
      · rw [hex] at h; simp at h
      · rw [hex] at h
        rw [expects_extend t hex (by decide)]
        try simp only at h
        try simp only
        simp only [has] at h ⊢
        rcases hpk : peekc p₁ with ⟨c?, p₂⟩
        simp only [hpk] at h
        cases c? with
        | none =>
          exfalso
          have h₂ := peekc_none_stream hpk
          rcases hal : arrayLoop f [] p₂ with e2 | rr
          · simp [hal] at h
          · exact arrayLoop_nilStream f [] p₂ h₂ rr hal
        | some c =>
          simp only [peekc_extend t hpk]
          by_cases hc : c = ']'
          · subst hc
            obtain ⟨cs₂, hcs₂⟩ := peekc_some_stream hpk
            simp [nextc_cons hcs₂] at h
            simp [nextc_extend t hcs₂]
            exact ⟨h.1, by rw [h.2]⟩
          · simp only [decide_eq_true_eq, Option.some.injEq] at h ⊢
            rw [if_neg hc] at h ⊢
            rcases hal : arrayLoop f [] p₂ with e2 | ⟨aL, pz⟩
            · rw [hal] at h; simp at h
            · rw [hal] at h
              try simp only at h
              rcases hex2 : expects pz ']' with e3 | p₃
              · rw [hex2] at h; simp at h
              · rw [hex2] at h
                have hpz : pz.stream ≠ [] := by
                  obtain ⟨cs, hcs, _⟩ := expects_ok_stream hex2 (by decide)
                  simp [hcs]
                rw [ihAL [] p₂ pz aL t hal hpz]
                try simp only
                rw [expects_extend t hex2 (by decide)]
                simp at h ⊢
                exact ⟨h.1, by rw [h.2]⟩
    · -- objectLoop
      intro o p p' r t h hne
      rw [objectLoop] at h
      rw [objectLoop]
      simp only [has] at h ⊢
      rcases hpk : peekc p with ⟨c?, p₁⟩
      simp only [hpk] at h
      cases c? with
      | none =>
        exfalso
        simp at h
      | some c =>
        simp only [peekc_extend t hpk]
        by_cases hc : c = '"'
        · subst hc
          simp only [decide_eq_true_eq, Option.some.injEq, if_pos rfl, Bind.bind, Except.bind] at h ⊢
          rcases hps : parse_string f p₁ with e | ⟨key, p₂⟩
          · rw [hps] at h; simp at h
          · rw [hps] at h
            try simp only at h
            rcases hex : expects p₂ ':' with e | p₃
            · rw [hex] at h; simp at h
            · rw [hex] at h
              try simp only at h
              have hp₂ : p₂.stream ≠ [] := by
                obtain ⟨cs, hcs, _⟩ := expects_ok_stream hex (by decide)
                simp [hcs]
              rw [parse_string_extend t hps hp₂]
              try simp only
              rw [expects_extend t hex (by decide)]
              try simp only
              rcases hv : parse_value f p₃ with e | ⟨v, p₄⟩
              · rw [hv] at h; simp at h
              · rw [hv] at h
                try simp only at h
                rcases hpk2 : peekc p₄ with ⟨c2?, p₅⟩
                simp only [hpk2] at h
                cases c2? with
                | none =>
                  exfalso
                  have h₅ := peekc_none_stream hpk2
                  simp at h
                  apply hne
                  rw [← h.2]
                  exact h₅
                | some c2 =>
                  have hp₄ : p₄.stream ≠ [] := peekc_some_ne_nil hpk2
                  rw [ihV p₃ p₄ v t hv hp₄]
                  try simp only
                  simp only [peekc_extend t hpk2]
                  by_cases hc2 : c2 = ','
                  · subst hc2
                    obtain ⟨cs₅, hcs₅⟩ := peekc_some_stream hpk2
                    simp [nextc_cons hcs₅] at h
                    simp [nextc_extend t hcs₅]
                    exact ihOL (setKey o key v) _ _ _ t h hne
                  · simp [hc2] at h ⊢
                    exact ⟨h.1, by rw [h.2]⟩
        · simp [hc] at h
    · -- parse_object
      intro p p' r t h
      rw [parse_object] at h
      rw [parse_object]
      simp only [Bind.bind, Except.bind] at h ⊢
      rcases hex : expects p '{' with e | p₁
      · rw [hex] at h; simp at h
      · rw [hex] at h
        rw [expects_extend t hex (by decide)]
        try simp only at h
        try simp only
        simp only [has] at h ⊢
        rcases hpk : peekc p₁ with ⟨c?, p₂⟩
        simp only [hpk] at h
        cases c? with
        | none =>
          exfalso
          have h₂ := peekc_none_stream hpk
          rcases hol : objectLoop f [] p₂ with e2 | rr
          · simp [hol] at h
          · exact objectLoop_nilStream f [] p₂ h₂ rr hol
        | some c =>
          simp only [peekc_extend t hpk]
          by_cases hc : c = '}'
          · subst hc
            obtain ⟨cs₂, hcs₂⟩ := peekc_some_stream hpk
            simp [nextc_cons hcs₂] at h
            simp [nextc_extend t hcs₂]
            exact ⟨h.1, by rw [h.2]⟩
          · simp only [decide_eq_true_eq, Option.some.injEq] at h ⊢
            rw [if_neg hc] at h ⊢
            rcases hol : objectLoop f [] p₂ with e2 | ⟨oL, pz⟩
            · rw [hol] at h; simp at h
            · rw [hol] at h
              try simp only at h
              rcases hex2 : expects pz '}' with e3 | p₃
              · rw [hex2] at h; simp at h
              · rw [hex2] at h
                have hpz : pz.stream ≠ [] := by
                  obtain ⟨cs, hcs, _⟩ := expects_ok_stream hex2 (by decide)
                  simp [hcs]
                rw [ihOL [] p₂ pz oL t hol hpz]
                try simp only
                rw [expects_extend t hex2 (by decide)]
                simp at h ⊢
                exact ⟨h.1, by rw [h.2]⟩



/-- C10.  `parse` does not require the input to be exhausted after the root
object: whenever a parse succeeds, running it on the same input with any
characters appended succeeds with the same value tree, and the appended
characters are left unconsumed at the end of the producer's stream. -/
theorem trailing_input_ignored (fuel : Nat) (s t : String)
    (o : List (String × value)) (p' : producer)
    (h : runParse fuel s = .ok (o, p')) :
    ∃ p'' : producer, runParse fuel (s ++ t) = .ok (o, p'')
      ∧ p''.stream = p'.stream ++ t.data := by
  unfold runParse parse at h ⊢
  have hmk : mkProducer (s ++ t) = extendP (mkProducer s) t.data := by
    simp [mkProducer, extendP]
  rw [hmk]
  by_cases hsw : (skip_ws (mkProducer s) true).stream = []
  · exfalso
    rcases fuel with _ | f
    · simp [parse_object] at h
    · rw [parse_object] at h
      simp [expects, nextc_nil hsw, Bind.bind, Except.bind,
        show noChar ≠ '{' from by decide] at h
  · rw [skip_ws_true_extend t.data hsw]
    exact ⟨extendP p' t.data, (parser_extend fuel).2.2.2.2 _ _ _ _ h, rfl⟩

/-- C10, witnessed: `"{}"` parses to the empty object, and `"{}" ++ "xyz"`
parses to the same object leaving exactly `"xyz"` unconsumed. -/
theorem trailing_input_ignored_witness :
    runParse 100 "\x7b\x7d" = .ok ([], ⟨[], 1, 3, true⟩)
    ∧ ∃ p'' : producer, runParse 100 ("\x7b\x7d" ++ "xyz") = .ok ([], p'')
        ∧ p''.stream = producer.stream ⟨[], 1, 3, true⟩ ++ "xyz".data :=
  ⟨rfl, trailing_input_ignored 100 "\x7b\x7d" "xyz" [] ⟨[], 1, 3, true⟩ rfl⟩
end LyzaJson
